import Mathlib

/-!
Verification of the MLST analysis pipeline in `vk_mlst_analysis.py`.

The development shallowly embeds the pipeline's pure core:
  * the best-match selector `_find_best_allele` (Length-Score minimisation
    with percent-identity tie-break over parsed tabular alignment hits),
  * the catalog loaders `_load_alleles` / `_load_genomes`,
  * the profile loader `_load_mlst_profiles` and the sequence-type
    resolver `_assign_sequence_types`,
  * the result assembly `_process_blast_results` and the top-level
    composition `run_analysis`.

Python `str` is modelled by `String`, Python `int` by `Int`, Python
`float` (only decimal literals appear in alignment output) by `ℚ`, a
Python `dict` by an association list with overwrite-on-insert, raised
exceptions reaching a `sys.exit` boundary by `Except PyErr`, and a
possibly missing or unreadable file by an `Option` of its parsed content.
-/

namespace VkMlst

/-! ### Python string primitives -/

/-- Whitespace stripped by Python's `int()` / `float()` conversions. -/
def isPySpace (c : Char) : Bool :=
  c == ' ' || c == '\t' || c == '\n' || c == '\x0d' || c == '\x0b' || c == '\x0c'

/-- Python `str.strip()` on a character list. -/
def stripPy (l : List Char) : List Char :=
  ((l.dropWhile isPySpace).reverse.dropWhile isPySpace).reverse

/-- Numeric value of a digit string (most significant first). -/
def digitsVal (l : List Char) : Nat :=
  l.foldl (fun n c => n * 10 + (c.toNat - 48)) 0

/-- Parse a nonempty all-digit character list. -/
def parseDigits (l : List Char) : Option Nat :=
  if l ≠ [] ∧ l.all Char.isDigit then some (digitsVal l) else none

/-- Python `int(s)`: optional sign, decimal digits, surrounding whitespace
allowed.  (PEP 515 digit underscores are not modelled; they never occur in
alignment output.) -/
def parsePyInt (s : String) : Option Int :=
  match stripPy s.data with
  | '-' :: rest => (parseDigits rest).map (fun n => -(n : Int))
  | '+' :: rest => (parseDigits rest).map (fun n => (n : Int))
  | l => (parseDigits l).map (fun n => (n : Int))

/-- Unsigned decimal literal `digits [ '.' digits ]` with at least one digit. -/
def parseDecFrac (l : List Char) : Option ℚ :=
  match l.dropWhile Char.isDigit with
  | [] => (parseDigits l).map (fun n => (n : ℚ))
  | '.' :: frac =>
    if (l.takeWhile Char.isDigit ≠ [] ∨ frac ≠ []) ∧ frac.all Char.isDigit then
      some ((digitsVal (l.takeWhile Char.isDigit) : ℚ) +
        (digitsVal frac : ℚ) / ((10 : ℚ) ^ frac.length))
    else none
  | _ => none

/-- Python `float(s)` restricted to plain decimal literals (the only form
produced in the `pident` column of tabular alignment output; exponent and
`inf`/`nan` literals are not modelled). -/
def parsePyFloat (s : String) : Option ℚ :=
  match stripPy s.data with
  | '-' :: rest => (parseDecFrac rest).map (fun q => -q)
  | '+' :: rest => parseDecFrac rest
  | l => parseDecFrac l

/-- Accumulator form of `s.split(sep)` for a single-character separator. -/
def splitCharAux (sep : Char) : List Char → List Char → List String
  | [], acc => [⟨acc.reverse⟩]
  | c :: rest, acc =>
    if c = sep then ⟨acc.reverse⟩ :: splitCharAux sep rest []
    else splitCharAux sep rest (c :: acc)

/-- Python `s.split(sep)` for a single-character separator. -/
def pySplitChar (sep : Char) (s : String) : List String :=
  splitCharAux sep s.data []

/-- Python `','.join(parts)`. -/
def joinComma : List String → String
  | [] => ""
  | [s] => s
  | s :: s' :: t => s ++ "," ++ joinComma (s' :: t)

/-- Python `s.replace(a, b)` for single characters. -/
def replaceChar (a b : Char) (s : String) : String :=
  ⟨s.data.map (fun c => if c = a then b else c)⟩

/-! ### The best-match selector (`_find_best_allele`) -/

/-- One parsed alignment hit: the fields of a tabular output row that the
selector consumes.  `allele` is `qseqid.split('_')[-1]`. -/
structure Hit where
  allele : String
  qlen : Int
  alen : Int
  gaps : Int
  pident : ℚ
deriving DecidableEq

/-- Length Score `LS = qlen - length + gaps` (lower is better). -/
def Hit.ls (h : Hit) : Int := h.qlen - h.alen + h.gaps

/-- The replacement test of the LS tracker:
`ls < best[0] or (ls == best[0] and pident > best[1])`. -/
def improves (h t : Hit) : Prop :=
  h.ls < t.ls ∨ (h.ls = t.ls ∧ t.pident < h.pident)

instance (h t : Hit) : Decidable (improves h t) := by
  unfold improves; infer_instance

/-- One step of the `best_by_ls` tracker. -/
def bestStep (acc : Option Hit) (h : Hit) : Option Hit :=
  match acc with
  | none => some h
  | some t => if improves h t then some h else some t

/-- One step of the `best_by_pident` tracker
(`pident > best_by_pident[1]`, strict). -/
def pidentStep (acc : Option Hit) (h : Hit) : Option Hit :=
  match acc with
  | none => some h
  | some t => if t.pident < h.pident then some h else some t

/-- The selector on a parsed hit list: the returned allele (from the
`best_by_ls` tracker) together with the disagreement-warning flag
(`best_by_ls[2] != best_by_pident[2]`). -/
def findBestFull (hits : List Hit) : Option String × Bool :=
  match hits.foldl bestStep none, hits.foldl pidentStep none with
  | some bLs, some bPid => (some bLs.allele, bLs.allele != bPid.allele)
  | _, _ => (none, false)

/-- The allele number token `qseqid.split('_')[-1]`. -/
def alleleOf (qseqid : String) : String :=
  (pySplitChar '_' qseqid).getLastD ""

/-- Parse one tab-split row under the fixed field names
`qseqid sseqid pident qlen length gaps mismatch`; any missing field or
failed `int`/`float` conversion is a raised exception, i.e. `none`. -/
def parseRow (row : List String) : Option Hit :=
  match row[0]?, row[2]?, row[3]?, row[4]?, row[5]? with
  | some q, some pS, some qlS, some alS, some gS =>
    match parsePyFloat pS, parsePyInt qlS, parsePyInt alS, parsePyInt gS with
    | some pident, some qlen, some alen, some gaps =>
      some { allele := alleleOf q, qlen := qlen, alen := alen,
             gaps := gaps, pident := pident }
    | _, _, _, _ => none
  | _, _, _, _, _ => none

/-- Traversal (`List.mapM`) over `Option`, written out so that it unfolds by structural
recursion: the first failing element aborts the whole traversal, matching
an exception escaping the row loop. -/
def omapM {α β : Type} (f : α → Option β) : List α → Option (List β)
  | [] => some []
  | a :: t =>
    match f a, omapM f t with
    | some b, some bt => some (b :: bt)
    | _, _ => none

/-- Model of `_find_best_allele` at its interface: `none` models a missing file,
`some raws` the tab-split rows of an existing one (`csv` skips blank rows).
Any parse failure is caught by the surrounding `except` and yields `None`. -/
def findBestAlleleFile (content : Option (List (List String))) : Option String :=
  match content with
  | none => none
  | some raws =>
    match omapM parseRow (raws.filter (fun r => !r.isEmpty)) with
    | none => none
    | some hits => (findBestFull hits).1

/-- Specification form of the LS tracker's fold: keep the accumulator
unless the next hit strictly improves on it. -/
def pickBest (t : Hit) : List Hit → Hit
  | [] => t
  | h :: rest => pickBest (if improves h t then h else t) rest

/-- A hit is optimal in a hit list when no hit of the list improves on
it: its LS is minimal and, among minimal-LS hits, its percent identity is
maximal. -/
def OptIn (L : List Hit) (x : Hit) : Prop :=
  ∀ y ∈ L, ¬ improves y x

instance (L : List Hit) (x : Hit) : Decidable (OptIn L x) := by
  unfold OptIn; infer_instance

/-! ### Errors reaching the `sys.exit` / top-level-handler boundary -/

/-- An abnormal termination of the pipeline: `exitErr` stands for a logged
error followed by `sys.exit(1)`, the others for unhandled Python
exceptions that propagate to the top-level handler (which also exits). -/
inductive PyErr where
  | exitErr
  | keyErr
  | typeErr
  | valueErr
deriving DecidableEq

instance {ε α : Type} [DecidableEq ε] [DecidableEq α] : DecidableEq (Except ε α) := by
  intro a b
  cases a <;> cases b
  case error.error e e' =>
    exact if h : e = e' then .isTrue (by rw [h])
      else .isFalse (fun hc => h (by injection hc))
  case error.ok e a' => exact .isFalse (fun hc => Except.noConfusion hc)
  case ok.error a' e => exact .isFalse (fun hc => Except.noConfusion hc)
  case ok.ok a' b' =>
    exact if h : a' = b' then .isTrue (by rw [h])
      else .isFalse (fun hc => h (by injection hc))

/-! ### Association lists with Python-`dict` semantics -/

/-- Python `d[k]` / `d.get(k)`. -/
def dlookup {α β : Type} [DecidableEq α] (k : α) : List (α × β) → Option β
  | [] => none
  | (k', v) :: t => if k = k' then some v else dlookup k t

/-- Python `d[k] = v`: overwrite in place, else append. -/
def dinsert {β : Type} : List (String × β) → String → β → List (String × β)
  | [], k, v => [(k, v)]
  | (k', v') :: t, k, v =>
    if k = k' then (k, v) :: t else (k', v') :: dinsert t k v

/-- Repeated `dinsert` (a loop of `d[k] = v` statements). -/
def dinsertAll {β : Type} : List (String × β) → List (String × β) → List (String × β)
  | acc, [] => acc
  | acc, (k, v) :: t => dinsertAll (dinsert acc k v) t

/-- Traversal (`List.mapM`) over `Except`, structural: the first raised exception
escapes the loop. -/
def emapM {ε α β : Type} (f : α → Except ε β) : List α → Except ε (List β)
  | [] => .ok []
  | a :: t =>
    match f a with
    | .error e => .error e
    | .ok b =>
      match emapM f t with
      | .error e => .error e
      | .ok bt => .ok (b :: bt)

/-! ### Catalog loaders (`_load_alleles`, `_load_genomes`) -/

/-- One FASTA file as the loaders see it: the file-name stem, the full
path and the parsed record identifiers; `seqIds = none` models a file on
which `SeqIO.parse` raises (unreadable or malformed). -/
structure SeqFile where
  stem : String
  path : String
  seqIds : Option (List String)
deriving DecidableEq

/-- The gene name of a locus file: `sequences[0].id.split('_')[0]`. -/
def geneOf (sid : String) : String :=
  (pySplitChar '_' sid).headD ""

/-- Sanitized stem `filepath.stem.replace("|", "_").replace(" ", "_")`. -/
def pySanitize (s : String) : String :=
  replaceChar ' ' '_' (replaceChar '|' '_' s)

/-- The (gene, (path, allele count)) entries the allele loader inserts,
in file order; empty and only empty files contribute nothing. -/
def alleleEntries : List SeqFile → List (String × (String × Nat))
  | [] => []
  | f :: rest =>
    match f.seqIds with
    | some (s :: more) => (geneOf s, (f.path, more.length + 1)) :: alleleEntries rest
    | _ => alleleEntries rest

/-- Loop of `_load_alleles` with the accumulated dictionary. -/
def loadAllelesAux : List SeqFile → List (String × (String × Nat)) →
    Except PyErr (List (String × (String × Nat)))
  | [], acc => .ok acc
  | f :: rest, acc =>
    match f.seqIds with
    | none => .error .exitErr
    | some [] => loadAllelesAux rest acc
    | some (s :: more) =>
      loadAllelesAux rest (dinsert acc (geneOf s) (f.path, more.length + 1))

/-- Model of `_load_alleles`: build the gene → (file, allele count) catalog;
a parse failure is fatal, a file with zero sequences is skipped. -/
def loadAlleles (files : List SeqFile) : Except PyErr (List (String × (String × Nat))) :=
  loadAllelesAux files []

/-- The (sanitized id, path) entries the genome loader inserts. -/
def genomeEntries : List SeqFile → List (String × String)
  | [] => []
  | f :: rest =>
    match f.seqIds with
    | some (_ :: _) => (pySanitize f.stem, f.path) :: genomeEntries rest
    | _ => genomeEntries rest

/-- Loop of `_load_genomes` with the accumulated dictionary. -/
def loadGenomesAux : List SeqFile → List (String × String) →
    Except PyErr (List (String × String))
  | [], acc => .ok acc
  | f :: rest, acc =>
    match f.seqIds with
    | none => .error .exitErr
    | some [] => loadGenomesAux rest acc
    | some (_ :: _) => loadGenomesAux rest (dinsert acc (pySanitize f.stem) f.path)

/-- Model of `_load_genomes`: build the genome-id → path catalog; ids are the
sanitized file stems, inserted with plain `dict` assignment. -/
def loadGenomes (files : List SeqFile) : Except PyErr (List (String × String)) :=
  loadGenomesAux files []

/-! ### Profile loading (`_load_mlst_profiles`) -/

/-- Position of the first occurrence, as in Python `l.index(k)`. -/
def pyIdx (k : String) : List String → Option Nat
  | [] => none
  | h :: t => if h = k then some 0 else (pyIdx k t).map (· + 1)

/-- The value `str(row[k])` for a `csv.DictReader` row: `none` is a `KeyError`
(column absent from the header); a row shorter than the header yields the
`restval` `None`, hence the string `"None"`.  Duplicate header names are
assumed distinct (`DictReader` collapses them). -/
def cellStr (header row : List String) (k : String) : Option String :=
  match pyIdx k header with
  | none => none
  | some i => some ((row[i]?).getD "None")

/-- Lexicographic code-point comparison of character lists (Python's
string order). -/
def charListLe : List Char → List Char → Bool
  | [], _ => true
  | _ :: _, [] => false
  | a :: as, b :: bs =>
    if a < b then true else if b < a then false else charListLe as bs

/-- Python `s1 <= s2` on strings. -/
def strLe (a b : String) : Bool := charListLe a.data b.data

/-- Insert into a sorted list, before the first not-smaller element. -/
def insSorted (s : String) : List String → List String
  | [] => [s]
  | t :: rest => if strLe s t then s :: t :: rest else t :: insSorted s rest

/-- Python `sorted` on strings: ascending insertion sort by the
code-point order. -/
def pySorted : List String → List String
  | [] => []
  | s :: rest => insSorted s (pySorted rest)

/-- The gene list `sorted([k for k in row.keys() if k not in ('ST', 'clonal_complex')])`. -/
def sortedGenes (header : List String) : List String :=
  pySorted ((header.dedup).filter (fun k => k != "ST" && k != "clonal_complex"))

/-- The allele-combination key a profile row contributes:
`','.join([str(row[gene]) for gene in genes])`. -/
def rowKey (header row : List String) : Option String :=
  (omapM (cellStr header row) (sortedGenes header)).map joinComma

/-- The ST column value `row['ST']`. -/
def rowST (header row : List String) : Option String :=
  cellStr header row "ST"

/-- The (key, ST) pairs inserted into the profile dictionary, in row
order (meaningful when every row's key and ST exist). -/
def profEntries (header : List String) (rows : List (List String)) : List (String × String) :=
  rows.map (fun r => ((rowKey header r).getD "", (rowST header r).getD ""))

/-- Loop of `_load_mlst_profiles`: `genes` is set from the first row and the
profile dictionary grows by overwrite; any `KeyError` (e.g. no `ST`
column) is caught and fatal. -/
def loadProfilesAux (header : List String) :
    List (List String) → Option (List String) → List (String × String) →
    Except PyErr (Option (List String) × List (String × String))
  | [], genes, acc => .ok (genes, acc)
  | row :: rest, genes, acc =>
    match omapM (cellStr header row) (genes.getD (sortedGenes header)),
          cellStr header row "ST" with
    | some comps, some st =>
      loadProfilesAux header rest (some (genes.getD (sortedGenes header)))
        (dinsert acc (joinComma comps) st)
    | _, _ => .error .exitErr

/-- Model of `_load_mlst_profiles`: returns the sorted gene list (still `None`
when the table has no rows) and the key → ST dictionary. -/
def loadProfiles (header : List String) (rows : List (List String)) :
    Except PyErr (Option (List String) × List (String × String)) :=
  loadProfilesAux header rows none []

/-! ### Sequence-type assignment (`_assign_sequence_types`) -/

/-- Cell rendering `str(row[gene]) if pd.notna(row[gene]) else 'NA'`. -/
def cellToStr : Option Int → String
  | some n => toString n
  | none => "NA"

/-- The per-genome key components over the profile's gene order; a gene
absent from the result columns is a `KeyError`. -/
def buildKeyComps (genes : List String) (cells : List (String × Option Int)) :
    Option (List String) :=
  omapM (fun g => (dlookup g cells).map cellToStr) genes

/-- Profile lookup and ST assignment: a hit is converted with `int(st)`
(a non-numeric ST raises), a miss is the sentinel `"NEW"`. -/
def resolveST (profiles : List (String × String)) (key : String) :
    Except PyErr (Int ⊕ String) :=
  match dlookup key profiles with
  | some st =>
    match parsePyInt st with
    | some n => .ok (Sum.inl n)
    | none => .error .valueErr
  | none => .ok (Sum.inr "NEW")

/-- The body of the per-isolate loop of `_assign_sequence_types`. -/
def assignGenome (genes : List String) (profiles : List (String × String))
    (cells : List (String × Option Int)) : Except PyErr (Int ⊕ String) :=
  match buildKeyComps genes cells with
  | none => .error .keyErr
  | some comps => resolveST profiles (joinComma comps)

/-- The per-isolate loop over the result table; iterating over a still-
`None` gene list raises a `TypeError` (empty profile table). -/
def assignAll (genesOpt : Option (List String)) (profiles : List (String × String))
    (df : List (String × List (String × Option Int))) :
    Except PyErr (List (String × (Int ⊕ String))) :=
  match genesOpt with
  | none => .error .typeErr
  | some genes =>
    emapM (fun gr => (assignGenome genes profiles gr.2).map (fun st => (gr.1, st))) df

/-- Model of `df.sort_values(list(genes))`: only its failure modes are modelled —
`list(None)` raises, and sorting by a column absent from the result table
raises `KeyError`.  The row reordering itself is not modelled (no claim
depends on row order). -/
def sortStep (genesOpt : Option (List String)) (columns : List String)
    (rows : List (String × (Int ⊕ String))) :
    Except PyErr (List (String × (Int ⊕ String))) :=
  match genesOpt with
  | none => .error .typeErr
  | some genes =>
    if ∀ g ∈ genes, g ∈ columns then .ok rows else .error .keyErr

/-! ### Result assembly (`_run_blast_analysis`, `_process_blast_results`) -/

/-- The `(genome_id, allele_name)` job keys, allele-major as generated by
`_run_blast_analysis`. -/
def jobPairs : List String → List String → List (String × String)
  | [], _ => []
  | a :: rest, gs => gs.map (fun g => (g, a)) ++ jobPairs rest gs

/-- One result cell: `int()` of the selector's allele string, `None` when
the selector found nothing; a non-numeric allele string raises. -/
def cellValue (content : Option (List (List String))) : Except PyErr (Option Int) :=
  match findBestAlleleFile content with
  | none => .ok none
  | some a =>
    match parsePyInt a with
    | some n => .ok (some n)
    | none => .error .valueErr

/-- Model of `_process_blast_results`: fill one cell per (genome, allele) job from
that job's output file (`out` maps a job to its parsed file content,
`none` when the file is missing, e.g. after a failed alignment job). -/
def processBlastResults (pairs : List (String × String))
    (out : String × String → Option (List (List String))) :
    Except PyErr (List ((String × String) × Option Int)) :=
  emapM (fun p => (cellValue (out p)).map (fun v => (p, v))) pairs

/-- The result table before ST assignment: one row per genome, one cell
per loaded allele name. -/
def dfRows (genomes : List (String × String)) (alleleNames : List String)
    (cells : List ((String × String) × Option Int)) :
    List (String × List (String × Option Int)) :=
  genomes.map (fun gp =>
    (gp.1, alleleNames.map (fun a => (a, (dlookup (gp.1, a) cells).getD none))))

/-- Model of `run_analysis` after argument validation and directory creation: load
both catalogs, run all alignment jobs, fill the result table, assign
sequence types and sort.  Every uncaught exception surfaces as an error
(the top-level handler exits). -/
def runPipeline (lociFiles genomeFiles : List SeqFile) (header : List String)
    (profRows : List (List String))
    (out : String × String → Option (List (List String))) :
    Except PyErr (List (String × (Int ⊕ String))) :=
  match loadAlleles lociFiles with
  | .error e => .error e
  | .ok alleles =>
    match loadGenomes genomeFiles with
    | .error e => .error e
    | .ok genomes =>
      match processBlastResults (jobPairs (alleles.map Prod.fst) (genomes.map Prod.fst)) out with
      | .error e => .error e
      | .ok cells =>
        match loadProfiles header profRows with
        | .error e => .error e
        | .ok (genesOpt, profiles) =>
          match assignAll genesOpt profiles (dfRows genomes (alleles.map Prod.fst) cells) with
          | .error e => .error e
          | .ok assigned =>
            sortStep genesOpt (alleles.map Prod.fst ++ ["ST"]) assigned

/-! ### Concrete fixtures for witnesses (spec §8 scenarios) -/

/-- Scenario A hit: allele 2, LS = 0, pident = 100. -/
def hitA : Hit := { allele := "2", qlen := 100, alen := 100, gaps := 0, pident := 100 }

/-- Scenario A hit: allele 1, LS = 5, pident = 95. -/
def hitB : Hit := { allele := "1", qlen := 100, alen := 95, gaps := 0, pident := 95 }

/-- Tie fixture: allele 3, LS = 0, pident = 99. -/
def hitC : Hit := { allele := "3", qlen := 100, alen := 100, gaps := 0, pident := 99 }

/-- Tie fixture: allele 4, same LS and pident as `hitC`. -/
def hitD : Hit := { allele := "4", qlen := 100, alen := 100, gaps := 0, pident := 99 }

/-- Witness fixture: alignment outputs where the job (g1, abc) failed
(its output file is missing) while (g2, abc) hit allele 2. -/
def outW : String × String → Option (List (List String)) :=
  fun p => if p = ("g1", "abc") then none
    else some [["abc_2", "s", "100.0", "5", "5", "0", "0"]]

/-! ### Lemmas on the strict-improvement order -/

theorem improves_irrefl (t : Hit) : ¬ improves t t := by
  simp [improves]

theorem improves_trans {a b c : Hit} (h1 : improves a b) (h2 : improves b c) :
    improves a c := by
  rcases h1 with h1 | ⟨h1e, h1p⟩ <;> rcases h2 with h2 | ⟨h2e, h2p⟩
  · exact Or.inl (lt_trans h1 h2)
  · exact Or.inl (by omega)
  · exact Or.inl (by omega)
  · exact Or.inr ⟨by omega, lt_trans h2p h1p⟩

theorem not_improves_antisymm {a b : Hit} (hab : ¬ improves a b)
    (hba : ¬ improves b a) : a.ls = b.ls ∧ a.pident = b.pident := by
  simp only [improves, not_or, not_and, not_lt] at hab hba
  obtain ⟨hab1, hab2⟩ := hab
  obtain ⟨hba1, hba2⟩ := hba
  have hls : a.ls = b.ls := le_antisymm hba1 hab1
  exact ⟨hls, le_antisymm (hab2 hls) (hba2 hls.symm)⟩

theorem improves_congr_right {a b y : Hit} (hl : a.ls = b.ls)
    (hp : a.pident = b.pident) : improves y a ↔ improves y b := by
  unfold improves; rw [hl, hp]

theorem improves_congr_left {a b y : Hit} (hl : a.ls = b.ls)
    (hp : a.pident = b.pident) : improves a y ↔ improves b y := by
  unfold improves; rw [hl, hp]

/-! ### Lemmas on the selector folds -/

theorem foldl_bestStep_some (t : Hit) (l : List Hit) :
    l.foldl bestStep (some t) = some (pickBest t l) := by
  induction l generalizing t with
  | nil => rfl
  | cons h rest ih =>
    rw [List.foldl_cons]
    by_cases hi : improves h t
    · simp only [bestStep, if_pos hi, pickBest, ih]
    · simp only [bestStep, if_neg hi, pickBest, ih]

theorem foldl_bestStep_cons (h : Hit) (rest : List Hit) :
    (h :: rest).foldl bestStep none = some (pickBest h rest) := by
  rw [List.foldl_cons]
  exact foldl_bestStep_some h rest

theorem foldl_pidentStep_isSome (t : Hit) (l : List Hit) :
    ∃ u, l.foldl pidentStep (some t) = some u := by
  induction l generalizing t with
  | nil => exact ⟨t, rfl⟩
  | cons h rest ih =>
    rw [List.foldl_cons]
    by_cases hp : t.pident < h.pident
    · simpa only [pidentStep, if_pos hp] using ih h
    · simpa only [pidentStep, if_neg hp] using ih t

theorem findBestFull_fst (h : Hit) (rest : List Hit) :
    (findBestFull (h :: rest)).1 = some (pickBest h rest).allele := by
  obtain ⟨u, hu⟩ : ∃ u, (h :: rest).foldl pidentStep none = some u := by
    rw [List.foldl_cons]
    exact foldl_pidentStep_isSome h rest
  simp only [findBestFull, foldl_bestStep_cons, hu]

theorem findBestFull_fst_eq_lsFold (hits : List Hit) :
    (findBestFull hits).1 = (hits.foldl bestStep none).map Hit.allele := by
  cases hits with
  | nil => rfl
  | cons h rest => rw [findBestFull_fst, foldl_bestStep_cons]; rfl

theorem pickBest_mem (t : Hit) (l : List Hit) : pickBest t l ∈ t :: l := by
  induction l generalizing t with
  | nil => simp [pickBest]
  | cons h rest ih =>
    simp only [pickBest]
    by_cases hi : improves h t
    · rw [if_pos hi]
      have := ih h
      simp only [List.mem_cons] at this ⊢
      tauto
    · rw [if_neg hi]
      have := ih t
      simp only [List.mem_cons] at this ⊢
      tauto

theorem pickBest_opt (t : Hit) (l : List Hit) :
    ∀ x ∈ t :: l, ¬ improves x (pickBest t l) := by
  induction l generalizing t with
  | nil =>
    intro x hx
    simp only [List.mem_cons, List.not_mem_nil, or_false] at hx
    subst hx
    exact improves_irrefl x
  | cons h rest ih =>
    intro x hx
    simp only [pickBest]
    by_cases hi : improves h t
    · rw [if_pos hi]
      rcases List.mem_cons.mp hx with heq | hx'
      · rw [heq]
        intro hcon
        exact ih h h (List.mem_cons_self h rest) (improves_trans hi hcon)
      · rcases List.mem_cons.mp hx' with heq | hx''
        · rw [heq]
          exact ih h h (List.mem_cons_self h rest)
        · exact ih h x (List.mem_cons_of_mem h hx'')
    · rw [if_neg hi]
      rcases List.mem_cons.mp hx with heq | hx'
      · rw [heq]
        exact ih t t (List.mem_cons_self t rest)
      · rcases List.mem_cons.mp hx' with heq | hx''
        · rw [heq]
          intro hcon
          have ht := ih t t (List.mem_cons_self t rest)
          by_cases hth : improves t h
          · exact ht (improves_trans hth hcon)
          · have tie := not_improves_antisymm hi hth
            exact ht ((improves_congr_left tie.1 tie.2).mp hcon)
        · exact ih t x (List.mem_cons_of_mem t hx'')

theorem pickBest_stay : ∀ (l : List Hit) (t : Hit),
    (∀ x ∈ l, ¬ improves x t) → pickBest t l = t := by
  intro l
  induction l with
  | nil => intro t _; rfl
  | cons h rest ih =>
    intro t hall
    simp only [pickBest, if_neg (hall h (List.mem_cons_self h rest))]
    exact ih t (fun x hx => hall x (List.mem_cons_of_mem h hx))

theorem pickBest_first_opt : ∀ (l₁ : List Hit) (t x : Hit) (l₂ L : List Hit),
    (∀ y ∈ t :: (l₁ ++ x :: l₂), y ∈ L) → ¬ OptIn L t →
    (∀ y ∈ l₁, ¬ OptIn L y) → OptIn L x →
    pickBest t (l₁ ++ x :: l₂) = x := by
  intro l₁
  induction l₁ with
  | nil =>
    intro t x l₂ L hsub ht _ hx
    have ht' : ∃ z ∈ L, improves z t := by
      simp only [OptIn] at ht
      push_neg at ht
      exact ht
    obtain ⟨z, hzL, hzt⟩ := ht'
    have hxt : improves x t := by
      by_cases h1 : improves x t
      · exact h1
      · by_cases h2 : improves t x
        · exact absurd h2 (hx t (hsub t (List.mem_cons_self _ _)))
        · have tie := not_improves_antisymm h1 h2
          exact absurd ((improves_congr_right tie.1 tie.2).mpr hzt) (hx z hzL)
    rw [List.nil_append]
    simp only [pickBest, if_pos hxt]
    exact pickBest_stay l₂ x (fun y hy =>
      hx y (hsub y (by simp [List.mem_cons, hy])))
  | cons h l₁' ih =>
    intro t x l₂ L hsub ht hl₁ hx
    rw [List.cons_append]
    simp only [pickBest]
    by_cases hi : improves h t
    · rw [if_pos hi]
      exact ih h x l₂ L
        (fun y hy => hsub y (by simp only [List.mem_cons, List.cons_append] at hy ⊢; tauto))
        (hl₁ h (List.mem_cons_self h l₁'))
        (fun y hy => hl₁ y (List.mem_cons_of_mem h hy)) hx
    · rw [if_neg hi]
      exact ih t x l₂ L
        (fun y hy => hsub y (by simp only [List.mem_cons, List.cons_append] at hy ⊢; tauto))
        ht (fun y hy => hl₁ y (List.mem_cons_of_mem h hy)) hx

theorem omapM_none {α β : Type} (f : α → Option β) :
    ∀ (l : List α) (a : α), a ∈ l → f a = none → omapM f l = none := by
  intro l
  induction l with
  | nil => intro a ha; exact absurd ha (List.not_mem_nil a)
  | cons b t ih =>
    intro a ha hfa
    rcases List.mem_cons.mp ha with rfl | ha'
    · simp only [omapM, hfa]
    · cases hfb : f b <;> simp only [omapM, hfb, ih a ha' hfa]

/-! ### Lemmas on dict-style association lists -/

theorem dlookup_dinsert {β : Type} (m : List (String × β)) (k : String) (v : β)
    (k' : String) :
    dlookup k' (dinsert m k v) = if k' = k then some v else dlookup k' m := by
  induction m with
  | nil => simp [dinsert, dlookup]
  | cons p t ih =>
    obtain ⟨k0, v0⟩ := p
    simp only [dinsert]
    by_cases hk : k = k0
    · subst hk
      rw [if_pos rfl]
      by_cases h' : k' = k <;> simp [dlookup, h']
    · rw [if_neg hk]
      by_cases h' : k' = k0
      · have hne : k' ≠ k := fun hh => hk (hh.symm.trans h')
        have hne0 : k0 ≠ k := fun hh => hk hh.symm
        simp [dlookup, h', hne, hne0]
      · simp [dlookup, h', ih]

theorem mem_keys_dinsert {β : Type} (m : List (String × β)) (k : String) (v : β)
    (a : String) :
    a ∈ (dinsert m k v).map Prod.fst ↔ a = k ∨ a ∈ m.map Prod.fst := by
  induction m with
  | nil => simp [dinsert]
  | cons p t ih =>
    obtain ⟨k0, v0⟩ := p
    simp only [dinsert]
    by_cases hk : k = k0
    · subst hk
      simp
    · simp only [if_neg hk, List.map_cons, List.mem_cons, ih]
      tauto

theorem nodup_keys_dinsert {β : Type} (m : List (String × β)) (k : String) (v : β)
    (h : (m.map Prod.fst).Nodup) : ((dinsert m k v).map Prod.fst).Nodup := by
  induction m with
  | nil => simp [dinsert]
  | cons p t ih =>
    obtain ⟨k0, v0⟩ := p
    simp only [List.map_cons, List.nodup_cons] at h
    simp only [dinsert]
    by_cases hk : k = k0
    · subst hk
      rw [if_pos rfl]
      simp only [List.map_cons, List.nodup_cons]
      exact h
    · simp only [if_neg hk, List.map_cons, List.nodup_cons, mem_keys_dinsert]
      refine ⟨?_, ih h.2⟩
      rintro (hh | hh)
      · exact hk hh.symm
      · exact h.1 hh

theorem nodup_keys_dinsertAll {β : Type} :
    ∀ (ps acc : List (String × β)), ((acc.map Prod.fst).Nodup) →
    ((dinsertAll acc ps).map Prod.fst).Nodup := by
  intro ps
  induction ps with
  | nil => intro acc h; exact h
  | cons p t ih =>
    intro acc h
    obtain ⟨k, v⟩ := p
    exact ih (dinsert acc k v) (nodup_keys_dinsert acc k v h)

theorem dlookup_append_some {α β : Type} [DecidableEq α]
    {l₁ : List (α × β)} (l₂ : List (α × β)) {k : α} {v : β}
    (h : dlookup k l₁ = some v) : dlookup k (l₁ ++ l₂) = some v := by
  induction l₁ with
  | nil => exact absurd h (by simp [dlookup])
  | cons p t ih =>
    obtain ⟨k0, v0⟩ := p
    simp only [dlookup, List.cons_append] at h ⊢
    by_cases hk : k = k0
    · rwa [if_pos hk] at h ⊢
    · rw [if_neg hk] at h ⊢
      exact ih h

theorem dlookup_append_none {α β : Type} [DecidableEq α]
    {l₁ : List (α × β)} (l₂ : List (α × β)) {k : α}
    (h : dlookup k l₁ = none) : dlookup k (l₁ ++ l₂) = dlookup k l₂ := by
  induction l₁ with
  | nil => rfl
  | cons p t ih =>
    obtain ⟨k0, v0⟩ := p
    simp only [dlookup, List.cons_append] at h ⊢
    by_cases hk : k = k0
    · rw [if_pos hk] at h; exact absurd h (by simp)
    · rw [if_neg hk] at h ⊢
      exact ih h

theorem dinsertAll_lookup {β : Type} :
    ∀ (ps acc : List (String × β)) (k : String),
    dlookup k (dinsertAll acc ps) =
      match dlookup k ps.reverse with
      | some v => some v
      | none => dlookup k acc := by
  intro ps
  induction ps with
  | nil => intro acc k; rfl
  | cons p t ih =>
    intro acc k
    obtain ⟨k0, v0⟩ := p
    show dlookup k (dinsertAll (dinsert acc k0 v0) t) = _
    rw [ih (dinsert acc k0 v0) k]
    have hrev : ((k0, v0) :: t).reverse = t.reverse ++ [(k0, v0)] := by
      simp
    rw [hrev]
    cases htr : dlookup k t.reverse with
    | some v => rw [dlookup_append_some _ htr]
    | none =>
      rw [dlookup_append_none _ htr, dlookup_dinsert]
      by_cases hk : k = k0 <;> simp [dlookup, hk]

theorem dlookup_mem {α β : Type} [DecidableEq α] :
    ∀ {l : List (α × β)} {k : α} {v : β}, dlookup k l = some v → (k, v) ∈ l := by
  intro l
  induction l with
  | nil => intro k v h; exact absurd h (by simp [dlookup])
  | cons p t ih =>
    intro k v h
    obtain ⟨k0, v0⟩ := p
    simp only [dlookup] at h
    by_cases hk : k = k0
    · rw [if_pos hk] at h
      exact List.mem_cons.mpr (Or.inl (by rw [hk, Option.some_inj.mp h]))
    · rw [if_neg hk] at h
      exact List.mem_cons.mpr (Or.inr (ih h))

theorem dlookup_eq_none_of_not_mem_keys {α β : Type} [DecidableEq α] :
    ∀ {l : List (α × β)} {k : α}, k ∉ l.map Prod.fst → dlookup k l = none := by
  intro l
  induction l with
  | nil => intro k _; rfl
  | cons p t ih =>
    intro k hk
    obtain ⟨k0, v0⟩ := p
    simp only [List.map_cons, List.mem_cons, not_or] at hk
    simp only [dlookup, if_neg hk.1]
    exact ih hk.2

theorem nodup_keys_last_lookup {β : Type} :
    ∀ {ps : List (String × β)} {k : String} {v : β},
    (ps.map Prod.fst).Nodup → (k, v) ∈ ps → dlookup k ps.reverse = some v := by
  intro ps
  induction ps with
  | nil => intro k v _ h; exact absurd h (List.not_mem_nil _)
  | cons p t ih =>
    intro k v hnd hmem
    obtain ⟨k0, v0⟩ := p
    simp only [List.map_cons, List.nodup_cons] at hnd
    have hrev : ((k0, v0) :: t).reverse = t.reverse ++ [(k0, v0)] := by simp
    rw [hrev]
    rcases List.mem_cons.mp hmem with heq | hmem'
    · obtain ⟨hk, hv⟩ := Prod.mk.injEq .. ▸ heq
      subst hk
      subst hv
      have : dlookup k t.reverse = none := by
        refine dlookup_eq_none_of_not_mem_keys ?_
        simpa using hnd.1
      rw [dlookup_append_none _ this]
      simp [dlookup]
    · exact dlookup_append_some _ (ih hnd.2 hmem')

/-! ### Loader characterizations -/

theorem loadAllelesAux_ok :
    ∀ (files : List SeqFile) (acc : List (String × (String × Nat))),
    (∀ f ∈ files, f.seqIds ≠ none) →
    loadAllelesAux files acc = .ok (dinsertAll acc (alleleEntries files)) := by
  intro files
  induction files with
  | nil => intro acc _; rfl
  | cons f rest ih =>
    intro acc hall
    cases hseq : f.seqIds with
    | none => exact absurd hseq (hall f (List.mem_cons_self f rest))
    | some l =>
      cases l with
      | nil =>
        simp only [loadAllelesAux, alleleEntries, hseq]
        exact ih acc (fun g hg => hall g (List.mem_cons_of_mem f hg))
      | cons s more =>
        simp only [loadAllelesAux, alleleEntries, hseq]
        exact ih _ (fun g hg => hall g (List.mem_cons_of_mem f hg))

theorem loadAlleles_ok (files : List SeqFile)
    (hall : ∀ f ∈ files, f.seqIds ≠ none) :
    loadAlleles files = .ok (dinsertAll [] (alleleEntries files)) :=
  loadAllelesAux_ok files [] hall

theorem loadGenomesAux_ok :
    ∀ (files : List SeqFile) (acc : List (String × String)),
    (∀ f ∈ files, f.seqIds ≠ none) →
    loadGenomesAux files acc = .ok (dinsertAll acc (genomeEntries files)) := by
  intro files
  induction files with
  | nil => intro acc _; rfl
  | cons f rest ih =>
    intro acc hall
    cases hseq : f.seqIds with
    | none => exact absurd hseq (hall f (List.mem_cons_self f rest))
    | some l =>
      cases l with
      | nil =>
        simp only [loadGenomesAux, genomeEntries, hseq]
        exact ih acc (fun g hg => hall g (List.mem_cons_of_mem f hg))
      | cons s more =>
        simp only [loadGenomesAux, genomeEntries, hseq]
        exact ih _ (fun g hg => hall g (List.mem_cons_of_mem f hg))

theorem loadGenomes_ok (files : List SeqFile)
    (hall : ∀ f ∈ files, f.seqIds ≠ none) :
    loadGenomes files = .ok (dinsertAll [] (genomeEntries files)) :=
  loadGenomesAux_ok files [] hall

/-! ### Claims about the best-match selector -/

/-- C1: on every non-empty hit list the selector returns the allele of a
hit with minimal Length Score, ties broken by higher percent identity;
the result is exactly the value of the LS tracker, so the independently
tracked percent-identity maximum (used only for the diagnostic warning)
never changes the returned allele. -/
theorem claim_C1 (hits : List Hit) (hne : hits ≠ []) :
    ∃ h ∈ hits,
      (findBestFull hits).1 = some h.allele ∧
      (∀ h' ∈ hits, h.ls ≤ h'.ls) ∧
      (∀ h' ∈ hits, h'.ls = h.ls → h'.pident ≤ h.pident) ∧
      (findBestFull hits).1 = (hits.foldl bestStep none).map Hit.allele := by
  cases hits with
  | nil => exact absurd rfl hne
  | cons h0 rest =>
    refine ⟨pickBest h0 rest, pickBest_mem h0 rest, findBestFull_fst h0 rest,
      ?_, ?_, findBestFull_fst_eq_lsFold _⟩
    · intro h' hh'
      have hno := pickBest_opt h0 rest h' hh'
      simp only [improves, not_or, not_and, not_lt] at hno
      exact hno.1
    · intro h' hh' hls
      have hno := pickBest_opt h0 rest h' hh'
      simp only [improves, not_or, not_and, not_lt] at hno
      exact hno.2 hls

/-- Witness for C1 on spec scenario A: the LS-minimal hit (allele 2,
LS 0, pident 100) is selected over allele 1 (LS 5, pident 95). -/
theorem claim_C1_witness :
    ([hitA, hitB] : List Hit) ≠ [] ∧
    ∃ h ∈ [hitA, hitB],
      (findBestFull [hitA, hitB]).1 = some h.allele ∧
      (∀ h' ∈ [hitA, hitB], h.ls ≤ h'.ls) ∧
      (∀ h' ∈ [hitA, hitB], h'.ls = h.ls → h'.pident ≤ h.pident) ∧
      (findBestFull [hitA, hitB]).1 =
        (([hitA, hitB] : List Hit).foldl bestStep none).map Hit.allele :=
  ⟨by decide, claim_C1 [hitA, hitB] (by decide)⟩

/-- C4: an empty hit list (zero parsed alignment rows) yields no match:
the selector returns `none` with no warning and raises nothing. -/
theorem claim_C4 :
    findBestFull ([] : List Hit) = (none, false) ∧
    findBestAlleleFile (some []) = none ∧
    findBestAlleleFile none = none :=
  ⟨rfl, rfl, rfl⟩

/-- C8: both trackers replace only on strict improvement, so among hits
that are optimal (minimal LS, maximal pident among those) the earliest
one in list order supplies the returned allele: if `x` is optimal and no
hit before it is, the selector returns `x.allele`. -/
theorem claim_C8 (l₁ : List Hit) (x : Hit) (l₂ : List Hit)
    (hopt : OptIn (l₁ ++ x :: l₂) x)
    (hfirst : ∀ y ∈ l₁, ¬ OptIn (l₁ ++ x :: l₂) y) :
    (findBestFull (l₁ ++ x :: l₂)).1 = some x.allele := by
  cases l₁ with
  | nil =>
    rw [List.nil_append, findBestFull_fst]
    rw [pickBest_stay l₂ x (fun y hy => hopt y (by simp [hy]))]
  | cons t l₁' =>
    rw [List.cons_append, findBestFull_fst]
    rw [pickBest_first_opt l₁' t x l₂ ((t :: l₁') ++ x :: l₂)
      (fun y hy => by simpa using hy)
      (hfirst t (List.mem_cons_self t l₁'))
      (fun y hy => hfirst y (List.mem_cons_of_mem t hy)) hopt]

/-- Witness for C8: two hits tied on LS and pident; the earlier one
(allele 3) wins over the later tied one (allele 4). -/
theorem claim_C8_witness :
    OptIn [hitC, hitD] hitC ∧ (findBestFull [hitC, hitD]).1 = some "3" :=
  ⟨by decide, claim_C8 [] hitC [hitD] (by decide) (by decide)⟩

/-- C9: the selector is total at its file interface: a missing file gives
`none`, a malformed non-blank row anywhere in an existing file (missing
field, non-integer `qlen`/`length`/`gaps`, non-float `pident`) gives
`none` via the caught exception, and every input maps to `none` or some
allele string — never an escaping exception. -/
theorem claim_C9 :
    (findBestAlleleFile none = none) ∧
    (∀ (raws : List (List String)) (r : List String), r ∈ raws → r ≠ [] →
      parseRow r = none → findBestAlleleFile (some raws) = none) ∧
    (∀ content, findBestAlleleFile content = none ∨
      ∃ a, findBestAlleleFile content = some a) := by
  refine ⟨rfl, ?_, ?_⟩
  · intro raws r hmem hne hpr
    have hfil : r ∈ raws.filter (fun r => !r.isEmpty) := by
      refine List.mem_filter.mpr ⟨hmem, ?_⟩
      cases r with
      | nil => exact absurd rfl hne
      | cons a t => rfl
    simp only [findBestAlleleFile, omapM_none parseRow _ r hfil hpr]
  · intro content
    cases h : findBestAlleleFile content with
    | none => exact Or.inl rfl
    | some a => exact Or.inr ⟨a, rfl⟩

/-- Witness for C9: a row whose `pident` field is not a float is a parse
failure and forces the `none` result. -/
theorem claim_C9_witness :
    parseRow ["abc_1", "g", "x", "5", "5", "0", "0"] = none ∧
    findBestAlleleFile (some [["abc_1", "g", "x", "5", "5", "0", "0"]]) = none :=
  ⟨by decide, claim_C9.2.1 [["abc_1", "g", "x", "5", "5", "0", "0"]]
    ["abc_1", "g", "x", "5", "5", "0", "0"] (by decide) (by decide) (by decide)⟩

theorem emapM_ok_of_all {ε α β : Type} (f : α → Except ε β) (g : α → β) :
    ∀ l : List α, (∀ a ∈ l, f a = .ok (g a)) → emapM f l = .ok (l.map g) := by
  intro l
  induction l with
  | nil => intro _; rfl
  | cons a t ih =>
    intro h
    simp only [emapM, h a (List.mem_cons_self a t),
      ih (fun b hb => h b (List.mem_cons_of_mem a hb)), List.map_cons]

/-! ### Lemmas on `omapM` and the profile loader -/

theorem omapM_eq_map {α β : Type} (f : α → Option β) (d : β) :
    ∀ l : List α, (∀ a ∈ l, (f a).isSome) →
    omapM f l = some (l.map (fun a => (f a).getD d)) := by
  intro l
  induction l with
  | nil => intro _; rfl
  | cons a t ih =>
    intro h
    obtain ⟨b, hb⟩ := Option.isSome_iff_exists.mp (h a (List.mem_cons_self a t))
    simp only [omapM, hb, ih (fun x hx => h x (List.mem_cons_of_mem a hx)),
      List.map_cons]
    simp [hb]

theorem omapM_mem {α β : Type} (f : α → Option β) :
    ∀ {l : List α} {out : List β} {a : α},
    omapM f l = some out → a ∈ l → ∃ b, f a = some b ∧ b ∈ out := by
  intro l
  induction l with
  | nil => intro out a _ ha; exact absurd ha (List.not_mem_nil a)
  | cons x t ih =>
    intro out a hout ha
    cases hfx : f x with
    | none => rw [omapM, hfx] at hout; exact absurd hout (by simp)
    | some b0 =>
      cases hrest : omapM f t with
      | none => rw [omapM, hfx, hrest] at hout; exact absurd hout (by simp)
      | some bt =>
        rw [omapM, hfx, hrest] at hout
        obtain rfl : b0 :: bt = out := by simpa using hout
        rcases List.mem_cons.mp ha with heq | ha'
        · exact ⟨b0, heq ▸ hfx, List.mem_cons_self b0 bt⟩
        · obtain ⟨b, hb, hbt⟩ := ih hrest ha'
          exact ⟨b, hb, List.mem_cons_of_mem b0 hbt⟩

theorem pyIdx_isSome_of_mem {k : String} :
    ∀ {l : List String}, k ∈ l → (pyIdx k l).isSome := by
  intro l
  induction l with
  | nil => intro h; exact absurd h (List.not_mem_nil k)
  | cons h t ih =>
    intro hmem
    by_cases heq : h = k
    · simp [pyIdx, heq]
    · have : k ∈ t := by
        rcases List.mem_cons.mp hmem with hk | hk
        · exact absurd hk.symm heq
        · exact hk
      simp only [pyIdx, if_neg heq]
      obtain ⟨i, hi⟩ := Option.isSome_iff_exists.mp (ih this)
      simp [hi]

theorem cellStr_isSome {header : List String} (row : List String) {k : String}
    (hk : k ∈ header) : (cellStr header row k).isSome := by
  obtain ⟨i, hi⟩ := Option.isSome_iff_exists.mp (pyIdx_isSome_of_mem hk)
  simp [cellStr, hi]

theorem charListLe_total : ∀ a b, charListLe a b = true ∨ charListLe b a = true := by
  intro a
  induction a with
  | nil => intro b; exact Or.inl rfl
  | cons x as ih =>
    intro b
    cases b with
    | nil => exact Or.inr rfl
    | cons y bs =>
      rcases lt_trichotomy x y with h | h | h
      · left; simp [charListLe, h]
      · subst h
        rcases ih bs with h' | h'
        · left; simp [charListLe, lt_irrefl, h']
        · right; simp [charListLe, lt_irrefl, h']
      · right; simp [charListLe, h]

theorem charListLe_trans : ∀ a b c, charListLe a b = true → charListLe b c = true →
    charListLe a c = true := by
  intro a
  induction a with
  | nil => intro b c _ _; rfl
  | cons x as ih =>
    intro b c hab hbc
    cases b with
    | nil => exact absurd hab (by simp [charListLe])
    | cons y bs =>
      cases c with
      | nil => exact absurd hbc (by simp [charListLe])
      | cons z cs =>
        rcases lt_trichotomy x y with hxy | hxy | hxy
        · rcases lt_trichotomy y z with hyz | hyz | hyz
          · simp [charListLe, lt_trans hxy hyz]
          · subst hyz; simp [charListLe, hxy]
          · exact absurd hbc (by simp [charListLe, lt_asymm hyz, hyz])
        · subst hxy
          rcases lt_trichotomy x z with hxz | hxz | hxz
          · simp [charListLe, hxz]
          · subst hxz
            have hab' : charListLe as bs = true := by
              simpa [charListLe, lt_irrefl] using hab
            have hbc' : charListLe bs cs = true := by
              simpa [charListLe, lt_irrefl] using hbc
            simpa [charListLe, lt_irrefl] using ih bs cs hab' hbc'
          · exact absurd hbc (by simp [charListLe, lt_asymm hxz, hxz])
        · exact absurd hab (by simp [charListLe, lt_asymm hxy, hxy])

theorem strLe_total (a b : String) : strLe a b = true ∨ strLe b a = true :=
  charListLe_total a.data b.data

theorem strLe_trans {a b c : String} (h1 : strLe a b = true)
    (h2 : strLe b c = true) : strLe a c = true :=
  charListLe_trans a.data b.data c.data h1 h2

theorem mem_insSorted (a s : String) : ∀ l, a ∈ insSorted s l ↔ a = s ∨ a ∈ l := by
  intro l
  induction l with
  | nil => simp [insSorted]
  | cons t rest ih =>
    by_cases h : strLe s t = true
    · simp [insSorted, h]
    · simp only [insSorted, if_neg h, List.mem_cons, ih]
      tauto

theorem sorted_insSorted (s : String) :
    ∀ l, List.Sorted (fun a b => strLe a b = true) l →
    List.Sorted (fun a b => strLe a b = true) (insSorted s l) := by
  intro l
  induction l with
  | nil => intro _; simp [insSorted]
  | cons t rest ih =>
    intro hs
    have hs' := List.sorted_cons.mp hs
    by_cases h : strLe s t = true
    · simp only [insSorted, if_pos h]
      rw [List.sorted_cons]
      refine ⟨?_, hs⟩
      intro b hb
      rcases List.mem_cons.mp hb with rfl | hb'
      · exact h
      · exact strLe_trans h (hs'.1 b hb')
    · simp only [insSorted, if_neg h]
      rw [List.sorted_cons]
      constructor
      · intro b hb
        rcases (mem_insSorted b s rest).mp hb with rfl | hb'
        · rcases strLe_total b t with h' | h'
          · exact absurd h' h
          · exact h'
        · exact hs'.1 b hb'
      · exact ih hs'.2

theorem sorted_pySorted : ∀ l, List.Sorted (fun a b => strLe a b = true) (pySorted l) := by
  intro l
  induction l with
  | nil => simp [pySorted]
  | cons s rest ih => exact sorted_insSorted s (pySorted rest) ih

theorem mem_pySorted (a : String) : ∀ l, a ∈ pySorted l ↔ a ∈ l := by
  intro l
  induction l with
  | nil => simp [pySorted]
  | cons s rest ih =>
    simp only [pySorted, mem_insSorted, List.mem_cons, ih]

theorem mem_sortedGenes {header : List String} {g : String}
    (hg : g ∈ sortedGenes header) :
    g ∈ header ∧ g ≠ "ST" ∧ g ≠ "clonal_complex" := by
  have h1 : g ∈ (header.dedup).filter (fun k => k != "ST" && k != "clonal_complex") := by
    rw [sortedGenes, mem_pySorted] at hg
    exact hg
  obtain ⟨h2, h3⟩ := List.mem_filter.mp h1
  simp only [Bool.and_eq_true, bne_iff_ne, ne_eq] at h3
  exact ⟨List.mem_dedup.mp h2, h3.1, h3.2⟩

theorem rowKey_isSome (header row : List String) : (rowKey header row).isSome := by
  rw [rowKey, omapM_eq_map (cellStr header row) "None" (sortedGenes header)
    (fun g hg => cellStr_isSome row (mem_sortedGenes hg).1)]
  rfl

theorem loadProfilesAux_ok (header : List String) (hST : "ST" ∈ header) :
    ∀ (rows : List (List String)) (gOpt : Option (List String))
      (acc : List (String × String)),
    (gOpt = none ∨ gOpt = some (sortedGenes header)) →
    loadProfilesAux header rows gOpt acc =
      .ok ((if rows.isEmpty then gOpt else some (sortedGenes header)),
        dinsertAll acc (profEntries header rows)) := by
  intro rows
  induction rows with
  | nil => intro gOpt acc _; rfl
  | cons row rest ih =>
    intro gOpt acc hg
    have hgetD : gOpt.getD (sortedGenes header) = sortedGenes header := by
      rcases hg with rfl | rfl <;> rfl
    have hcomps := omapM_eq_map (cellStr header row) "None" (sortedGenes header)
      (fun g hgm => cellStr_isSome row (mem_sortedGenes hgm).1)
    obtain ⟨st, hst⟩ := Option.isSome_iff_exists.mp (cellStr_isSome (k := "ST") row hST)
    have hkeyD : (rowKey header row).getD "" =
        joinComma ((sortedGenes header).map
          (fun a => (cellStr header row a).getD "None")) := by
      rw [rowKey, hcomps]; rfl
    have hstD : (rowST header row).getD "" = st := by rw [rowST, hst]; rfl
    simp only [loadProfilesAux, hgetD, hcomps, hst]
    rw [ih (some (sortedGenes header)) _ (Or.inr rfl)]
    simp only [profEntries, List.map_cons, List.isEmpty_cons, hkeyD, hstD]
    have : (if rest.isEmpty then some (sortedGenes header)
        else some (sortedGenes header)) = some (sortedGenes header) := ite_self _
    rw [this]
    rfl

theorem loadProfiles_ok (header : List String) (rows : List (List String))
    (hST : "ST" ∈ header) :
    loadProfiles header rows =
      .ok ((if rows.isEmpty then none else some (sortedGenes header)),
        dinsertAll [] (profEntries header rows)) :=
  loadProfilesAux_ok header hST rows none [] (Or.inl rfl)

theorem loadAllelesAux_all_empty :
    ∀ (files : List SeqFile) (acc : List (String × (String × Nat))),
    (∀ f ∈ files, f.seqIds = some []) → loadAllelesAux files acc = .ok acc := by
  intro files
  induction files with
  | nil => intro acc _; rfl
  | cons f rest ih =>
    intro acc h
    simp only [loadAllelesAux, h f (List.mem_cons_self f rest)]
    exact ih acc (fun g hg => h g (List.mem_cons_of_mem f hg))

theorem loadProfilesAux_genes (header : List String) :
    ∀ (rows : List (List String)) (g : Option (List String))
      (acc : List (String × String)) (g' : Option (List String))
      (m : List (String × String)),
    loadProfilesAux header rows g acc = .ok (g', m) →
    g' = g ∨ g' = some (g.getD (sortedGenes header)) := by
  intro rows
  induction rows with
  | nil =>
    intro g acc g' m h
    left
    simp only [loadProfilesAux, Except.ok.injEq, Prod.mk.injEq] at h
    exact h.1.symm
  | cons row rest ih =>
    intro g acc g' m h
    simp only [loadProfilesAux] at h
    cases h1 : omapM (cellStr header row) (g.getD (sortedGenes header)) with
    | none =>
      cases h2 : cellStr header row "ST" with
      | none => rw [h1, h2] at h; exact absurd h (by simp)
      | some st => rw [h1, h2] at h; exact absurd h (by simp)
    | some comps =>
      cases h2 : cellStr header row "ST" with
      | none => rw [h1, h2] at h; exact absurd h (by simp)
      | some st =>
        rw [h1, h2] at h
        rcases ih (some (g.getD (sortedGenes header))) _ g' m h with h' | h'
        · exact Or.inr h'
        · right; simpa using h'

theorem loadProfiles_genes (header : List String) (rows : List (List String))
    (gs : List String) (m : List (String × String))
    (h : loadProfiles header rows = .ok (some gs, m)) :
    gs = sortedGenes header := by
  rcases loadProfilesAux_genes header rows none [] (some gs) m h with h' | h'
  · exact absurd h' (by simp)
  · simpa using h'

theorem loadAllelesAux_filter :
    ∀ (files : List SeqFile) (acc : List (String × (String × Nat))),
    loadAllelesAux files acc =
      loadAllelesAux (files.filter (fun f => f.seqIds != some [])) acc := by
  intro files
  induction files with
  | nil => intro acc; rfl
  | cons f rest ih =>
    intro acc
    cases hseq : f.seqIds with
    | none =>
      have hpred : (f.seqIds != some []) = true := by rw [hseq]; rfl
      simp only [List.filter_cons, hpred, if_pos, loadAllelesAux, hseq]
    | some l =>
      cases l with
      | nil =>
        have hpred : (f.seqIds != some []) = false := by rw [hseq]; rfl
        simp only [List.filter_cons, hpred, Bool.false_eq_true, if_false,
          loadAllelesAux, hseq]
        exact ih acc
      | cons s more =>
        have hpred : (f.seqIds != some []) = true := by rw [hseq]; rfl
        simp only [List.filter_cons, hpred, if_pos, loadAllelesAux, hseq]
        exact ih _

theorem dinsert_ne_nil {β : Type} (m : List (String × β)) (k : String) (v : β) :
    dinsert m k v ≠ [] := by
  cases m with
  | nil => simp [dinsert]
  | cons p t =>
    obtain ⟨k', v'⟩ := p
    by_cases h : k = k' <;> simp [dinsert, h]

theorem dinsertAll_ne_nil {β : Type} :
    ∀ (ps acc : List (String × β)), acc ≠ [] → dinsertAll acc ps ≠ [] := by
  intro ps
  induction ps with
  | nil => intro acc h; exact h
  | cons p t ih =>
    intro acc _
    obtain ⟨k, v⟩ := p
    exact ih (dinsert acc k v) (dinsert_ne_nil acc k v)

theorem alleleEntries_ne_nil :
    ∀ (files : List SeqFile) (f₀ : SeqFile) (s : String) (r : List String),
    f₀ ∈ files → f₀.seqIds = some (s :: r) → alleleEntries files ≠ [] := by
  intro files
  induction files with
  | nil => intro f₀ s r hmem _; exact absurd hmem (List.not_mem_nil f₀)
  | cons f rest ih =>
    intro f₀ s r hmem hseq
    cases hf : f.seqIds with
    | none =>
      simp only [alleleEntries, hf]
      rcases List.mem_cons.mp hmem with rfl | hmem'
      · exact absurd hseq (by rw [hf]; simp)
      · exact ih f₀ s r hmem' hseq
    | some l =>
      cases l with
      | nil =>
        simp only [alleleEntries, hf]
        rcases List.mem_cons.mp hmem with rfl | hmem'
        · rw [hf] at hseq; exact absurd hseq (by simp)
        · exact ih f₀ s r hmem' hseq
      | cons s' more => simp [alleleEntries, hf]

/-! ### Character-level lemmas on joined keys -/

theorem data_append (a b : String) : (a ++ b).data = a.data ++ b.data := by
  cases a; cases b; rfl

theorem jc_mem_char : ∀ (l : List String) (s : String), s ∈ l →
    ∀ c ∈ s.data, c ∈ (joinComma l).data := by
  intro l
  induction l with
  | nil => intro s hs; exact absurd hs (List.not_mem_nil s)
  | cons s0 t ih =>
    intro s hs c hc
    cases t with
    | nil =>
      obtain rfl : s = s0 := by simpa using hs
      exact hc
    | cons s1 t' =>
      show c ∈ (s0 ++ "," ++ joinComma (s1 :: t')).data
      rw [data_append, data_append]
      rcases List.mem_cons.mp hs with rfl | hs'
      · exact List.mem_append.mpr (Or.inl (List.mem_append.mpr (Or.inl hc)))
      · exact List.mem_append.mpr (Or.inr (ih s hs' c hc))

theorem jc_char_cases : ∀ (l : List String) (c : Char),
    c ∈ (joinComma l).data → c = ',' ∨ ∃ s ∈ l, c ∈ s.data := by
  intro l
  induction l with
  | nil => intro c hc; exact absurd hc (List.not_mem_nil c)
  | cons s0 t ih =>
    intro c hc
    cases t with
    | nil =>
      exact Or.inr ⟨s0, List.mem_cons_self s0 [], hc⟩
    | cons s1 t' =>
      rw [show joinComma (s0 :: s1 :: t') = s0 ++ "," ++ joinComma (s1 :: t') from rfl,
        data_append, data_append] at hc
      rcases List.mem_append.mp hc with hc' | hc'
      · rcases List.mem_append.mp hc' with hc'' | hc''
        · exact Or.inr ⟨s0, List.mem_cons_self s0 _, hc''⟩
        · left
          simpa using hc''
      · rcases ih c hc' with h | ⟨s, hsmem, hsc⟩
        · exact Or.inl h
        · exact Or.inr ⟨s, List.mem_cons_of_mem s0 hsmem, hsc⟩

theorem loadProfiles_snd (header : List String) (rows : List (List String))
    (gOpt : Option (List String)) (profiles : List (String × String))
    (hST : "ST" ∈ header)
    (hload : loadProfiles header rows = .ok (gOpt, profiles)) :
    profiles = dinsertAll [] (profEntries header rows) := by
  rw [loadProfiles_ok header rows hST] at hload
  simp only [Except.ok.injEq, Prod.mk.injEq] at hload
  exact hload.2.symm

/-! ### Claims about sequence-type resolution -/

/-- C2: the resolver's keys on both sides run over the profile table's
locus columns in ascending sorted order; a genome whose key equals the
key of some profile row (keys being unique) is assigned that row's ST
converted to an integer, and a genome whose key matches no row is
assigned the sentinel string `"NEW"`. -/
theorem claim_C2 (header : List String) (rows : List (List String))
    (cells : List (String × Option Int)) (comps : List String)
    (gOpt : Option (List String)) (profiles : List (String × String))
    (hST : "ST" ∈ header)
    (hload : loadProfiles header rows = .ok (gOpt, profiles))
    (hkey : buildKeyComps (sortedGenes header) cells = some comps) :
    List.Sorted (fun a b => strLe a b = true) (sortedGenes header) ∧
    (∀ r ∈ rows, ∀ st n, rowKey header r = some (joinComma comps) →
      rowST header r = some st → parsePyInt st = some n →
      (rows.map (fun row => (rowKey header row).getD "")).Nodup →
      assignGenome (sortedGenes header) profiles cells = .ok (Sum.inl n)) ∧
    ((∀ r ∈ rows, rowKey header r ≠ some (joinComma comps)) →
      assignGenome (sortedGenes header) profiles cells = .ok (Sum.inr "NEW")) := by
  have hprof := loadProfiles_snd header rows gOpt profiles hST hload
  have hassign : assignGenome (sortedGenes header) profiles cells =
      resolveST profiles (joinComma comps) := by
    simp only [assignGenome, hkey]
  refine ⟨sorted_pySorted _, ?_, ?_⟩
  · intro r hr st n hrk hrst hpn hnd
    have hmem : (joinComma comps, st) ∈ profEntries header rows := by
      refine List.mem_map.mpr ⟨r, hr, ?_⟩
      rw [hrk, hrst]
      rfl
    have hnd' : ((profEntries header rows).map Prod.fst).Nodup := by
      rw [profEntries, List.map_map]
      exact hnd
    have hlook : dlookup (joinComma comps) profiles = some st := by
      rw [hprof, dinsertAll_lookup, nodup_keys_last_lookup hnd' hmem]
    rw [hassign]
    simp only [resolveST, hlook, hpn]
  · intro hnone
    have hrev : dlookup (joinComma comps) (profEntries header rows).reverse = none := by
      rcases hq : dlookup (joinComma comps) (profEntries header rows).reverse with _ | st
      · rfl
      · exfalso
        have hmem := dlookup_mem hq
        rw [List.mem_reverse] at hmem
        obtain ⟨r, hr, hre⟩ := List.mem_map.mp hmem
        simp only [Prod.mk.injEq] at hre
        obtain ⟨k₀, hk₀⟩ := Option.isSome_iff_exists.mp (rowKey_isSome header r)
        have : rowKey header r = some (joinComma comps) := by
          rw [hk₀]
          have := hre.1
          rw [hk₀] at this
          simpa using this
        exact hnone r hr this
    have hlook : dlookup (joinComma comps) profiles = none := by
      rw [hprof, dinsertAll_lookup, hrev]
      rfl
    rw [hassign]
    simp only [resolveST, hlook]

/-- Witness for C2 (spec scenario B): profile row abc=2, xyz=7, ST=10;
a genome resolving abc=2, xyz=7 is assigned ST 10. -/
theorem claim_C2_witness :
    assignGenome (sortedGenes ["xyz", "abc", "ST"]) [("2,7", "10")]
      [("abc", some 2), ("xyz", some 7)] = .ok (Sum.inl 10) :=
  (claim_C2 ["xyz", "abc", "ST"] [["7", "2", "10"]]
    [("abc", some 2), ("xyz", some 7)] ["2", "7"]
    (some ["abc", "xyz"]) [("2,7", "10")]
    (by decide) (by decide) (by decide)).2.1
    ["7", "2", "10"] (by decide) "10" 10 (by decide) (by decide) (by decide) (by decide)

/-- C5 counterexample: the claim asserts that a genome with a missing
locus is always assigned `"NEW"`, but a profile row whose stored allele
value is the literal string `NA` produces a key that matches the
NA-substituted genome key, so its ST (5) is assigned instead. -/
theorem claim_C5_counterexample :
    loadProfiles ["abc", "ST"] [["NA", "5"]] = .ok (some ["abc"], [("NA", "5")]) ∧
    assignGenome ["abc"] [("NA", "5")] [("abc", (none : Option Int))] =
      .ok (Sum.inl 5) ∧
    (Sum.inl 5 : Int ⊕ String) ≠ Sum.inr "NEW" :=
  ⟨by decide, by decide, by decide⟩

/-- C5 (amended): a genome with a missing locus gets the sentinel `"NA"`
in its key component for that locus, and — provided every profile allele
value is a plain digit string (so no stored value is `NA` or contains a
comma) — the key matches no profile row and the assigned sequence type is
the sentinel `"NEW"`, not a failure. -/
theorem claim_C5 (header : List String) (rows : List (List String))
    (cells : List (String × Option Int)) (comps : List String)
    (gOpt : Option (List String)) (profiles : List (String × String))
    (g₀ : String)
    (hST : "ST" ∈ header)
    (hload : loadProfiles header rows = .ok (gOpt, profiles))
    (hg₀ : g₀ ∈ sortedGenes header)
    (hcell : dlookup g₀ cells = some none)
    (hkey : buildKeyComps (sortedGenes header) cells = some comps)
    (hdig : ∀ r ∈ rows, ∀ g ∈ sortedGenes header,
      ((cellStr header r g).elim true (fun s => s.data.all Char.isDigit)) = true) :
    "NA" ∈ comps ∧
    assignGenome (sortedGenes header) profiles cells = .ok (Sum.inr "NEW") := by
  have hNA : "NA" ∈ comps := by
    obtain ⟨b, hb, hbm⟩ := omapM_mem _ hkey hg₀
    rw [hcell] at hb
    obtain rfl : b = "NA" := by simpa [cellToStr] using hb.symm
    exact hbm
  refine ⟨hNA, ?_⟩
  have hassign : assignGenome (sortedGenes header) profiles cells =
      resolveST profiles (joinComma comps) := by
    simp only [assignGenome, hkey]
  have hN : ('N' : Char) ∈ (joinComma comps).data :=
    jc_mem_char comps "NA" hNA 'N' (by decide)
  have hrev : dlookup (joinComma comps) (profEntries header rows).reverse = none := by
    rcases hq : dlookup (joinComma comps) (profEntries header rows).reverse with _ | st
    · rfl
    · exfalso
      have hmem := dlookup_mem hq
      rw [List.mem_reverse] at hmem
      obtain ⟨r, hr, hre⟩ := List.mem_map.mp hmem
      simp only [Prod.mk.injEq] at hre
      obtain ⟨k₀, hk₀⟩ := Option.isSome_iff_exists.mp (rowKey_isSome header r)
      have hkey_r : k₀ = joinComma comps := by
        have := hre.1
        rw [hk₀] at this
        simpa using this
      have hcomps := omapM_eq_map (cellStr header r) "None" (sortedGenes header)
        (fun g hgm => cellStr_isSome r (mem_sortedGenes hgm).1)
      have hk₀' : k₀ = joinComma ((sortedGenes header).map
          (fun a => (cellStr header r a).getD "None")) := by
        rw [rowKey, hcomps] at hk₀
        simpa using hk₀.symm
      have hchars : ∀ c ∈ (joinComma ((sortedGenes header).map
          (fun a => (cellStr header r a).getD "None"))).data,
          c = ',' ∨ c.isDigit = true := by
        intro c hc
        rcases jc_char_cases _ c hc with h | ⟨s, hsmem, hsc⟩
        · exact Or.inl h
        · right
          obtain ⟨g, hgmem, hgs⟩ := List.mem_map.mp hsmem
          have hdg := hdig r hr g hgmem
          obtain ⟨sv, hsv⟩ := Option.isSome_iff_exists.mp
            (cellStr_isSome r (mem_sortedGenes hgmem).1)
          rw [hsv] at hdg hgs
          simp only [Option.elim] at hdg
          obtain rfl : sv = s := by simpa using hgs
          exact List.all_eq_true.mp hdg c hsc
      have hNk : ('N' : Char) ∈ k₀.data := hkey_r ▸ hN
      rw [hk₀'] at hNk
      rcases hchars 'N' hNk with h | h
      · exact absurd h (by decide)
      · exact absurd h (by decide)
  have hprof := loadProfiles_snd header rows gOpt profiles hST hload
  have hlook : dlookup (joinComma comps) profiles = none := by
    rw [hprof, dinsertAll_lookup, hrev]
    rfl
  rw [hassign]
  simp only [resolveST, hlook]

/-- Witness for C5 (amended): genome missing locus xyz against an
all-numeric profile table; the key component is `NA` and the assigned
sequence type is `"NEW"`. -/
theorem claim_C5_witness :
    "NA" ∈ ["1", "NA"] ∧
    assignGenome (sortedGenes ["abc", "xyz", "ST"]) [("1,4", "9")]
      [("abc", some 1), ("xyz", (none : Option Int))] = .ok (Sum.inr "NEW") :=
  claim_C5 ["abc", "xyz", "ST"] [["1", "4", "9"]]
    [("abc", some 1), ("xyz", none)] ["1", "NA"]
    (some ["abc", "xyz"]) [("1,4", "9")] "xyz"
    (by decide) (by decide) (by decide) (by decide) (by decide) (by decide)

/-! ### Claim about degraded alignment jobs -/

/-- C3: a failed alignment job (missing output file) does not abort
result processing: whenever every present output parses to numeric
alleles, `_process_blast_results` succeeds, the failed pair's cell is
`none` (zero hits), and every other pair's cell is still produced from
its own file. -/
theorem claim_C3 (pairs : List (String × String))
    (out : String × String → Option (List (List String)))
    (p₀ : String × String)
    (hfail : out p₀ = none)
    (hgood : ∀ p ∈ pairs, ((findBestAlleleFile (out p)).elim true
      (fun a => (parsePyInt a).isSome)) = true) :
    processBlastResults pairs out =
      .ok (pairs.map (fun p => (p, (findBestAlleleFile (out p)).bind parsePyInt))) ∧
    (findBestAlleleFile (out p₀)).bind parsePyInt = none := by
  constructor
  · apply emapM_ok_of_all
    intro p hp
    have hg := hgood p hp
    cases hfb : findBestAlleleFile (out p) with
    | none => simp [cellValue, hfb, Except.map]
    | some a =>
      rw [hfb] at hg
      simp only [Option.elim] at hg
      obtain ⟨n, hn⟩ := Option.isSome_iff_exists.mp hg
      simp [cellValue, hfb, hn, Except.map]
  · rw [hfail]
    rfl

/-- Witness for C3: job (g1, abc) has a missing output file, job
(g2, abc) succeeds; the table is still filled, with `none` for the
failed pair. -/
theorem claim_C3_witness :
    processBlastResults [("g1", "abc"), ("g2", "abc")] outW =
      .ok (([("g1", "abc"), ("g2", "abc")] : List (String × String)).map
        (fun p => (p, (findBestAlleleFile (outW p)).bind parsePyInt))) ∧
    (findBestAlleleFile (outW ("g1", "abc"))).bind parsePyInt = none :=
  claim_C3 [("g1", "abc"), ("g2", "abc")] outW ("g1", "abc") (by decide) (by decide)

theorem pipeline_aborts_no_loci (lociFiles genomeFiles : List SeqFile)
    (header : List String) (profRows : List (List String))
    (out : String × String → Option (List (List String)))
    (hempty : ∀ f ∈ lociFiles, f.seqIds = some [])
    (hgenes : sortedGenes header ≠ []) :
    ∃ e, runPipeline lociFiles genomeFiles header profRows out = .error e := by
  have hall : loadAlleles lociFiles = .ok [] :=
    loadAllelesAux_all_empty lociFiles [] hempty
  cases hg : loadGenomes genomeFiles with
  | error e => exact ⟨e, by simp only [runPipeline, hall, hg]⟩
  | ok genomes =>
    cases hlp : loadProfiles header profRows with
    | error e =>
      refine ⟨e, ?_⟩
      simp only [runPipeline, hall, hg, List.map_nil, jobPairs,
        processBlastResults, emapM, hlp]
    | ok gp =>
      obtain ⟨gOpt, profiles⟩ := gp
      cases gOpt with
      | none =>
        refine ⟨.typeErr, ?_⟩
        simp only [runPipeline, hall, hg, List.map_nil, jobPairs,
          processBlastResults, emapM, hlp, assignAll]
      | some gs =>
        have hgs : gs = sortedGenes header :=
          loadProfiles_genes header profRows gs profiles hlp
        subst hgs
        obtain ⟨g0, grest, hsg⟩ : ∃ g0 grest, sortedGenes header = g0 :: grest := by
          cases hsge : sortedGenes header with
          | nil => exact absurd hsge hgenes
          | cons a b => exact ⟨a, b, rfl⟩
        have hg0mem : g0 ∈ sortedGenes header := by
          rw [hsg]; exact List.mem_cons_self _ _
        cases genomes with
        | nil =>
          refine ⟨.keyErr, ?_⟩
          have hnot : ¬ ∀ g ∈ sortedGenes header, g ∈ ([] : List String) ++ ["ST"] := by
            intro hallmem
            have hg0 := hallmem g0 hg0mem
            have h1 : g0 = "ST" := by simpa using hg0
            exact (mem_sortedGenes hg0mem).2.1 h1
          simp only [runPipeline, hall, hg, List.map_nil, jobPairs,
            processBlastResults, emapM, hlp, assignAll, dfRows, sortStep]
          rw [if_neg hnot]
        | cons g0row grows =>
          refine ⟨.keyErr, ?_⟩
          have hag : assignGenome (sortedGenes header) profiles [] = .error .keyErr := by
            have hb : buildKeyComps (sortedGenes header) [] = none := by
              rw [hsg]
              exact omapM_none _ _ g0 (List.mem_cons_self _ _) rfl
            simp only [assignGenome, hb]
          simp only [runPipeline, hall, hg, List.map_nil, jobPairs,
            processBlastResults, emapM, hlp, assignAll, dfRows, List.map_cons,
            hag, Except.map]

/-! ### Claims about the catalog loaders -/

/-- C6 counterexample: two genome files whose stems `a|b` and `a b`
sanitize to the same identifier `a_b` do NOT cause a fatal load error —
the loader succeeds and the later file's path silently replaces the
earlier one's, refuting "collision is a fatal load error". -/
theorem claim_C6_counterexample :
    pySanitize "a|b" = "a_b" ∧ pySanitize "a b" = "a_b" ∧
    loadGenomes [⟨"a|b", "p1", some ["s1"]⟩, ⟨"a b", "p2", some ["s2"]⟩] =
      .ok [("a_b", "p2")] :=
  ⟨rfl, rfl, rfl⟩

/-- C6 (amended): identifier collisions are not detected: whenever every
genome file parses, the load succeeds, the resulting catalog's ids are
unique only because the dictionary keeps one entry per id, and each id
maps to the path of the last-enumerated non-empty file bearing it (the
later file silently overwrites the earlier). -/
theorem claim_C6 (files : List SeqFile)
    (hall : ∀ f ∈ files, f.seqIds ≠ none) :
    ∃ m, loadGenomes files = .ok m ∧
      (m.map Prod.fst).Nodup ∧
      ∀ k, dlookup k m = dlookup k (genomeEntries files).reverse := by
  refine ⟨dinsertAll [] (genomeEntries files), loadGenomes_ok files hall,
    nodup_keys_dinsertAll _ [] (by simp), ?_⟩
  intro k
  rw [dinsertAll_lookup (genomeEntries files) [] k]
  cases dlookup k (genomeEntries files).reverse <;> rfl

/-- Witness for C6 (amended): two colliding files load without error,
ids are unique, and lookup follows the later file. -/
theorem claim_C6_witness :
    ∃ m, loadGenomes [⟨"g|1", "q1", some ["s"]⟩, ⟨"g 1", "q2", some ["s"]⟩] = .ok m ∧
      (m.map Prod.fst).Nodup ∧
      ∀ k, dlookup k m =
        dlookup k (genomeEntries
          [⟨"g|1", "q1", some ["s"]⟩, ⟨"g 1", "q2", some ["s"]⟩]).reverse :=
  claim_C6 _ (by decide)

/-- C10: the allele catalog keeps at most one entry per gene name (the
first underscore token of the first sequence id, `geneOf`); when every
locus file parses the load succeeds with no error, keys are unique, and
each gene maps to the entry of the last-enumerated file yielding that
gene name — the later file silently replaces the earlier. -/
theorem claim_C10 (files : List SeqFile)
    (hall : ∀ f ∈ files, f.seqIds ≠ none) :
    ∃ m, loadAlleles files = .ok m ∧
      (m.map Prod.fst).Nodup ∧
      ∀ g, dlookup g m = dlookup g (alleleEntries files).reverse := by
  refine ⟨dinsertAll [] (alleleEntries files), loadAlleles_ok files hall,
    nodup_keys_dinsertAll _ [] (by simp), ?_⟩
  intro g
  rw [dinsertAll_lookup (alleleEntries files) [] g]
  cases dlookup g (alleleEntries files).reverse <;> rfl

/-- C7: a locus file with zero sequences is skipped by the loader without
being fatal (loading a file list equals loading it with the empty files
filtered out, and succeeds non-trivially when some locus file is
non-empty); but when every locus file has zero sequences no locus loads,
and — for any profile table naming at least one locus column — the
pipeline aborts with an error (the gene columns are missing from the
empty result table). -/
theorem claim_C7 :
    (∀ (lociFiles genomeFiles : List SeqFile) (header : List String)
      (profRows : List (List String))
      (out : String × String → Option (List (List String))),
      (∀ f ∈ lociFiles, f.seqIds = some []) → sortedGenes header ≠ [] →
      ∃ e, runPipeline lociFiles genomeFiles header profRows out = .error e) ∧
    (∀ files : List SeqFile,
      loadAlleles files =
        loadAlleles (files.filter (fun f => f.seqIds != some []))) ∧
    (∀ (files : List SeqFile) (f₀ : SeqFile) (s : String) (r : List String),
      (∀ f ∈ files, f.seqIds ≠ none) → f₀ ∈ files → f₀.seqIds = some (s :: r) →
      ∃ m, loadAlleles files = .ok m ∧ m ≠ []) := by
  refine ⟨?_, ?_, ?_⟩
  · intro lf gf h pr out hempty hgenes
    exact pipeline_aborts_no_loci lf gf h pr out hempty hgenes
  · intro files
    exact loadAllelesAux_filter files []
  · intro files f₀ s r hall hmem hseq
    refine ⟨dinsertAll [] (alleleEntries files), loadAlleles_ok files hall, ?_⟩
    have hne := alleleEntries_ne_nil files f₀ s r hmem hseq
    cases hae : alleleEntries files with
    | nil => exact absurd hae hne
    | cons e t =>
      obtain ⟨k, v⟩ := e
      exact dinsertAll_ne_nil t (dinsert [] k v) (dinsert_ne_nil [] k v)

/-- Witness for C7: with the single locus file empty the whole run
aborts; with a second non-empty locus file the load succeeds and is
non-empty. -/
theorem claim_C7_witness :
    (∃ e, runPipeline [⟨"abc", "pa", some []⟩] [⟨"g1", "pg", some ["s"]⟩]
      ["abc", "ST"] [["1", "4"]] (fun _ => none) = .error e) ∧
    (∃ m, loadAlleles [⟨"f1", "p1", some []⟩, ⟨"f2", "p2", some ["abc_1"]⟩] =
      .ok m ∧ m ≠ []) :=
  ⟨claim_C7.1 _ _ _ _ _ (by decide) (by decide),
   claim_C7.2.2 _ ⟨"f2", "p2", some ["abc_1"]⟩ "abc_1" []
     (by decide) (by decide) (by decide)⟩

/-- Witness for C10: two locus files whose first headers share the gene
name `abc`; the catalog ends up with the second file's entry. -/
theorem claim_C10_witness :
    ∃ m, loadAlleles [⟨"f1", "p1", some ["abc_1", "abc_2"]⟩,
        ⟨"f2", "p2", some ["abc_9"]⟩] = .ok m ∧
      (m.map Prod.fst).Nodup ∧
      ∀ g, dlookup g m = dlookup g (alleleEntries
        [⟨"f1", "p1", some ["abc_1", "abc_2"]⟩, ⟨"f2", "p2", some ["abc_9"]⟩]).reverse :=
  claim_C10 _ (by decide)

end VkMlst
